import Mathlib

/-!
Verification development for the `importmap` crate (`src/lib.rs`).

The program text is shallowly embedded: Rust `String`/`&str` values become
`List Char` (the code only ever slices at positions returned by substring
searches, which are character boundaries, so char-level indices are a faithful
rendering of the byte-level ones), `BTreeMap<String, String>` becomes an
association list sorted by key, fallible operations return `Option`, and the
one reachable panic (a byte-slice with start > end in `extract_href_values`)
is rendered as an explicit `none` at an outer `Option` layer.
-/

set_option maxHeartbeats 1000000
set_option maxRecDepth 100000

/-- Rust strings, embedded at character level. -/
abbrev Str := List Char

/-- `str::find` for a substring pattern: index of the first occurrence
(`html.find(pat)` in the source). -/
def findSub : Str → Str → Option Nat
  | [], pat => if pat.isPrefixOf ([] : Str) then some 0 else none
  | c :: t, pat =>
    if pat.isPrefixOf (c :: t) then some 0
    else (findSub t pat).map (fun i => i + 1)

/-- Rust `str::contains` for a substring pattern. -/
def isSubstr (s pat : Str) : Bool := (findSub s pat).isSome

/-- Rust `str::rfind(c)`: index of the last occurrence of the character. -/
def lastIdxOf (c : Char) : Str → Option Nat
  | [] => none
  | a :: s =>
    match lastIdxOf c s with
    | some j => some (j + 1)
    | none => if a = c then some 0 else none

/-- Split at '/' keeping every (possibly empty) segment, like
`str::split('/')`. -/
def splitOnSlash : Str → List Str
  | [] => [[]]
  | c :: rest =>
    if c = '/' then [] :: splitOnSlash rest
    else
      match splitOnSlash rest with
      | [] => [[c]]
      | s :: ss => (c :: s) :: ss

/-- Join segments with '/': inverse of `splitOnSlash` on slash-free segments. -/
def joinSegs : List Str → Str
  | [] => []
  | [s] => s
  | s :: rest => s ++ '/' :: joinSegs rest

/-- `str::split_inclusive('\n')`: chunks each keeping their trailing newline;
the final chunk may lack one; empty input gives no chunks. -/
def splitInclNl : Str → List Str
  | [] => []
  | c :: rest =>
    if c = '\n' then [c] :: splitInclNl rest
    else
      match splitInclNl rest with
      | [] => [[c]]
      | s :: ss => (c :: s) :: ss

/-- The per-chunk cleanup done by Rust `str::lines`: strip one trailing
newline, and a carriage return just before it. -/
def rustLineTrim (l : Str) : Str :=
  if l.getLast? = some '\n' then
    let l' := l.dropLast
    if l'.getLast? = some '\r' then l'.dropLast else l'
  else l

/-- Rust `str::lines`. -/
def rustLines (s : Str) : List Str := (splitInclNl s).map rustLineTrim

/-- Lexicographic order on strings (Rust `Ord` for `String`; UTF-8 byte order
and codepoint order agree). -/
def strLt : Str → Str → Bool
  | [], [] => false
  | [], _ :: _ => true
  | _ :: _, [] => false
  | a :: s, b :: t => a < b || (a = b && strLt s t)

/-- `BTreeMap::insert`, on an association list kept sorted by key. -/
def mapInsert : List (Str × Str) → Str → Str → List (Str × Str)
  | [], k, v => [(k, v)]
  | (k', v') :: rest, k, v =>
    if strLt k k' then (k, v) :: (k', v') :: rest
    else if k = k' then (k, v) :: rest
    else (k', v') :: mapInsert rest k v

/-- `BTreeMap::remove`: the removed value (if any) and the remaining map. -/
def mapRemove : List (Str × Str) → Str → Option Str × List (Str × Str)
  | [], _ => (none, [])
  | (k', v') :: rest, k =>
    if k' = k then (some v', rest)
    else
      let r := mapRemove rest k
      (r.1, (k', v') :: r.2)

/-- `BTreeMap::get` as plain association-list lookup. -/
def lookupMap : List (Str × Str) → Str → Option Str
  | [], _ => none
  | (k', v') :: rest, k => if k' = k then some v' else lookupMap rest k

/-! ### Literal constants of `ImportMap` (src/lib.rs lines 27-30) -/

/-- `ImportMap::MARKER_OPEN`. -/
def MARKER_OPEN : Str :=
  ['<', '!', '-', '-', ' ', 'I', 'M', 'P', 'O', 'R', 'T', 'M', 'A', 'P', ' ', '-', '-', '>']

/-- `ImportMap::MARKER_CLOSE`. -/
def MARKER_CLOSE : Str :=
  ['<', '!', '-', '-', ' ', '/', 'I', 'M', 'P', 'O', 'R', 'T', 'M', 'A', 'P', ' ', '-', '-', '>']

/-- The string "js". -/
def extJs : Str := ['j', 's']

/-- The string "mjs". -/
def extMjs : Str := ['m', 'j', 's']

/-- The string "css". -/
def extCss : Str := ['c', 's', 's']

/-- `ImportMap::EXTENSIONS`. -/
def EXTENSIONS : List Str := [extJs, extMjs, extCss]

/-- `ImportMap::HASH_LEN`. -/
def HASH_LEN : Nat := 8

/-! ### Path helpers (shallow model of `std::path::Path` for slash paths) -/

/-- The components of a slash path: `Path::components` drops empty segments and
non-leading `.` segments; for the paths this program feeds to `Path` (relative
scan paths and URLs) dropping every `.` segment only changes `file_name` when
`.` is last, where Rust also ignores it. -/
def pathSegs (p : Str) : List Str :=
  (splitOnSlash p).filter (fun s => s ≠ [] && s ≠ ['.'])

/-- `Path::file_name` (`None` when the path has no components or ends in
`..`). -/
def fileName? (p : Str) : Option Str :=
  match (pathSegs p).getLast? with
  | none => none
  | some s => if s = ['.', '.'] then none else some s

/-- `Path::extension`: the portion of the file name after its last `.`;
`None` when there is no dot or the only dot is leading. -/
def extension? (p : Str) : Option Str :=
  match fileName? p with
  | none => none
  | some n =>
    match lastIdxOf '.' n with
    | none => none
    | some j => if j = 0 then none else some (n.drop (j + 1))

/-- `Path::file_stem`: the portion of the file name before its last `.`, the
whole name when there is no dot or the only dot is leading. -/
def fileStem? (p : Str) : Option Str :=
  match fileName? p with
  | none => none
  | some n =>
    match lastIdxOf '.' n with
    | none => some n
    | some j => if j = 0 then some n else some (n.take j)

/-- `str::trim_end_matches('/')`. -/
def trimTrailingSlashes (b : Str) : Str :=
  (b.reverse.dropWhile (fun c => c = '/')).reverse

/-- `Path::with_file_name`: drop the final component (and trailing slashes)
and append the new name. -/
def withFileName (p new : Str) : Str :=
  let q := trimTrailingSlashes p
  match lastIdxOf '/' q with
  | some i => q.take (i + 1) ++ new
  | none => new

/-! ### Hasher -/

/-- Modelled from the spec: the external `rapidhash::v3::rapidhash_v3` crate
function is not part of this repository; §4.2 of the spec admits any
deterministic, well-distributed 64-bit hash of the byte contents, so it is
modelled here by the FNV-1a 64-bit fold. Every theorem below uses only that it
is a function of the bytes with a value below 2^64. -/
def rapidhash_v3 (data : List Nat) : Nat :=
  data.foldl (fun h b => ((h ^^^ b % 256) * 1099511628211) % 2 ^ 64) 14695981039346656037

/-- Lowercase hexadecimal digit. -/
def hexDigit (n : Nat) : Char :=
  Char.ofNat (if n < 10 then 48 + n else 87 + n)

/-- `format!("{:016x}", _)` generalized: `w` lowercase hex digits, zero
padded, most significant first. -/
def toHexPad (w n : Nat) : Str :=
  (List.range w).map (fun i => hexDigit (n / 16 ^ (w - 1 - i) % 16))

/-- The `&hash_hex[..Self::HASH_LEN]` prefix of `format!("{:016x}", hash)`
(src/lib.rs lines 90-92): a function of the file bytes alone. -/
def shortHash (contents : List Nat) : Str :=
  (toHexPad 16 (rapidhash_v3 contents)).take HASH_LEN

/-! ### Scanner (src/lib.rs lines 57-110) -/

/-- The string ".development.". -/
def devInfixLong : Str := ['.', 'd', 'e', 'v', 'e', 'l', 'o', 'p', 'm', 'e', 'n', 't', '.']

/-- The string ".dev.". -/
def devInfixShort : Str := ['.', 'd', 'e', 'v', '.']

/-- The string ".test.". -/
def testInfix : Str := ['.', 't', 'e', 's', 't', '.']

/-- The string "tests". -/
def testsSeg : Str := ['t', 'e', 's', 't', 's']

/-- `ImportMap::process_file`, split into the decision/URL-construction part:
`none` when the file is filtered out, otherwise the
`(original_url, hashed_url)` pair inserted into the map. The
`path.parent().is_none_or(|p| p == Path::new(""))` root test is rendered as
"at most one component", and the `parent` used for the hashed URL as the
slash-join of all components but the last, matching `Path` on the slash paths
the scanner produces. -/
def process_file_entry (path : Str) (contents : List Nat) (base_url : Str) :
    Option (Str × Str) :=
  let ext := (extension? path).getD []
  if ext ∈ EXTENSIONS then
    -- Skip JS files at root (e.g. service-worker.js)
    if ext = extJs ∧ (pathSegs path).length ≤ 1 then none
    else
      let name := (fileName? path).getD []
      -- Skip development builds and test files
      if isSubstr name devInfixLong || isSubstr name devInfixShort || isSubstr name testInfix then
        none
      -- Skip underscore-prefixed files (partials/internal)
      else if name.head? = some '_' then none
      -- Skip test files
      else if (pathSegs path).any (fun c => c = testsSeg) then none
      else
        match fileStem? path with
        | none => none
        | some stem =>
          let short := shortHash contents
          let original := base_url ++ '/' :: path
          let segs := pathSegs path
          let hashed :=
            if 2 ≤ segs.length then
              base_url ++ '/' :: joinSegs segs.dropLast ++ '/' :: stem ++ '.' :: short ++ '.' :: ext
            else
              base_url ++ '/' :: stem ++ '.' :: short ++ '.' :: ext
          some (original, hashed)
  else none

/-- `ImportMap::process_file`: insert the produced pair, if any. -/
def process_file (m : List (Str × Str)) (path : Str) (contents : List Nat)
    (base_url : Str) : List (Str × Str) :=
  match process_file_entry path contents base_url with
  | none => m
  | some kv => mapInsert m kv.1 kv.2

/-- `ImportMap::scan`, with the filesystem walk abstracted to the list of
(relative path, byte contents) pairs it visits, in visit order
(src/lib.rs lines 37-55). -/
def scan (files : List (Str × List Nat)) (base_url : Str) : List (Str × Str) :=
  let base := trimTrailingSlashes base_url
  files.foldl (fun m pc => process_file m pc.1 pc.2 base) []

/-- Rust `u8::is_ascii_hexdigit` on a char. -/
def isHexDigitAscii (c : Char) : Bool :=
  ('0' ≤ c && c ≤ '9') || ('a' ≤ c && c ≤ 'f') || ('A' ≤ c && c ≤ 'F')

/-- `ImportMap::strip_hash` (src/lib.rs lines 112-130). -/
def strip_hash (path : Str) : Option Str :=
  match fileStem? path with
  | none => none
  | some stem =>
    match extension? path with
    | none => none
    | some ext =>
      if ext ∈ EXTENSIONS then
        match lastIdxOf '.' stem with
        | none => none
        | some dot_pos =>
          let hash := stem.drop (dot_pos + 1)
          if hash.length = HASH_LEN ∧ hash.all isHexDigitAscii then
            some (withFileName path (stem.take dot_pos ++ '.' :: ext))
          else none
      else none

/-! ### HTML transformer (src/lib.rs lines 132-237) -/

/-- The string "stylesheet". -/
def relStylesheet : Str := ['s', 't', 'y', 'l', 'e', 's', 'h', 'e', 'e', 't']

/-- The ASCII single quote. -/
def squote : Char := Char.ofNat 39

/-- `format!(r#"rel="{rel}""#)`. -/
def relPatDq (rel : Str) : Str := 'r' :: 'e' :: 'l' :: '=' :: '"' :: rel ++ ['"']

/-- `format!(r#"rel='{rel}'"#)`. -/
def relPatSq (rel : Str) : Str := 'r' :: 'e' :: 'l' :: '=' :: squote :: rel ++ [squote]

/-- The pattern `href="`. -/
def hrefDq : Str := ['h', 'r', 'e', 'f', '=', '"']

/-- The pattern `href='`. -/
def hrefSq : Str := ['h', 'r', 'e', 'f', '=', squote]

/-- The line filter of `extract_href_values` (src/lib.rs line 200). -/
def lineHasRel (rel line : Str) : Bool :=
  isSubstr line (relPatDq rel) || isSubstr line (relPatSq rel)

/-- The `filter_map` body of `extract_href_values` (src/lib.rs lines 201-206):
position just after `href="` or `href='`, the quote character that precedes
that position, and the text up to the next occurrence of that quote. -/
def hrefOfLine (line : Str) : Option Str :=
  let hs? :=
    match findSub line hrefDq with
    | some i => some (i + 6)
    | none => (findSub line hrefSq).map (fun i => i + 6)
  match hs? with
  | none => none
  | some hs =>
    match line.get? (hs - 1) with
    | none => none
    | some q =>
      match findSub (line.drop hs) [q] with
      | none => none
      | some e => some ((line.drop hs).take e)

/-- The slice `html[start..end]` of `extract_href_values` (src/lib.rs lines
195-198), where `start` is the first open-marker position (default 0) and
`end` the first close-marker position anywhere (default `len`). Rust panics
when `start > end`; that panic is rendered as `none`. -/
def regionOf (html : Str) : Option Str :=
  let start := (findSub html MARKER_OPEN).getD 0
  let e := (findSub html MARKER_CLOSE).getD html.length
  if start ≤ e then some ((html.drop start).take (e - start)) else none

/-- `ImportMap::extract_href_values`; the outer `none` is the byte-slice
panic of the region computation. -/
def extract_href_values (html rel : Str) : Option (List Str) :=
  match regionOf html with
  | none => none
  | some region =>
    some (((rustLines region).filter (lineHasRel rel)).filterMap hrefOfLine)

/-- The re-indentation step of `replace_between_markers` (src/lib.rs lines
218-228): prefix every non-empty line with the indent, keep blank lines
blank, join with newlines. -/
def indentLines (indent content : Str) : Str :=
  List.intercalate ['\n']
    ((rustLines content).map (fun l => if l = [] then [] else indent ++ l))

/-- `ImportMap::replace_between_markers` (src/lib.rs lines 210-237). -/
def replace_between_markers (html content : Str) : Option Str :=
  match findSub html MARKER_OPEN with
  | none => none
  | some start_pos =>
    let after_open := start_pos + MARKER_OPEN.length
    match findSub (html.drop after_open) MARKER_CLOSE with
    | none => none
    | some i =>
      let end_pos := i + after_open
      let line_start :=
        match lastIdxOf '\n' (html.take start_pos) with
        | some j => j + 1
        | none => 0
      let indent := (html.take start_pos).drop line_start
      some (html.take after_open ++ '\n' :: indentLines indent content ++
        '\n' :: indent ++ html.drop end_pos)

/-- The fold of src/lib.rs lines 151-159: partition the map into the css
`BTreeMap` and the js `Vec`, by the extension of the key. -/
def cssJsPartition (m : List (Str × Str)) : List (Str × Str) × List (Str × Str) :=
  m.foldl
    (fun acc kv =>
      match extension? kv.1 with
      | some e =>
        if e = extCss then (mapInsert acc.1 kv.1 kv.2, acc.2)
        else if e = extJs ∨ e = extMjs then (acc.1, acc.2 ++ [kv])
        else acc
      | none => acc)
    ([], [])

/-- The `filter_map(|url| css.remove(&url))` pass of src/lib.rs lines 162-165:
each matching href consumes its map entry. -/
def consumeCss : List Str → List (Str × Str) → List Str × List (Str × Str)
  | [], css => ([], css)
  | u :: us, css =>
    match mapRemove css u with
    | (some v, css') =>
      let r := consumeCss us css'
      (v :: r.1, r.2)
    | (none, _) => consumeCss us css

/-- `format!(r#"<link rel="stylesheet" href="{url}">"#)`. -/
def linkStylesheet (url : Str) : Str :=
  ['<', 'l', 'i', 'n', 'k', ' ', 'r', 'e', 'l', '=', '"', 's', 't', 'y', 'l', 'e', 's',
   'h', 'e', 'e', 't', '"', ' ', 'h', 'r', 'e', 'f', '=', '"'] ++ url ++ ['"', '>']

/-- `format!(r#"<link rel="modulepreload" href="{url}">"#)`. -/
def linkPreload (url : Str) : Str :=
  ['<', 'l', 'i', 'n', 'k', ' ', 'r', 'e', 'l', '=', '"', 'm', 'o', 'd', 'u', 'l', 'e',
   'p', 'r', 'e', 'l', 'o', 'a', 'd', '"', ' ', 'h', 'r', 'e', 'f', '=', '"'] ++ url ++ ['"', '>']

/-- serde_json string escaping: quote, backslash, the five short control
escapes, `\u00xx` for other control characters. -/
def jsonEscapeChar (c : Char) : Str :=
  if c = '"' then ['\\', '"']
  else if c = '\\' then ['\\', '\\']
  else if c.toNat = 8 then ['\\', 'b']
  else if c.toNat = 9 then ['\\', 't']
  else if c.toNat = 10 then ['\\', 'n']
  else if c.toNat = 12 then ['\\', 'f']
  else if c.toNat = 13 then ['\\', 'r']
  else if c.toNat < 32 then
    ['\\', 'u', '0', '0', hexDigit (c.toNat / 16), hexDigit (c.toNat % 16)]
  else [c]

/-- serde_json quoted string. -/
def jsonStr (s : Str) : Str := '"' :: (s.map jsonEscapeChar).flatten ++ ['"']

/-- `serde_json::to_string_pretty(&json!({ "imports": js_map }))` with the
default two-space indent (src/lib.rs line 175); serialization of a map of
strings cannot fail, so the `.ok()?` is total. -/
def jsonImports (entries : List (Str × Str)) : Str :=
  let inner :=
    if entries = [] then ['\x7b', '\x7d']
    else
      '\x7b' :: '\n' ::
        List.intercalate [',', '\n']
          (entries.map fun kv =>
            ' ' :: ' ' :: ' ' :: ' ' :: jsonStr kv.1 ++ ':' :: ' ' :: jsonStr kv.2) ++
        '\n' :: ' ' :: ' ' :: ['\x7d']
  '\x7b' :: '\n' ::
    [' ', ' ', '"', 'i', 'm', 'p', 'o', 'r', 't', 's', '"', ':', ' '] ++ inner ++
    '\n' :: ['\x7d']

/-- The stylesheet section (src/lib.rs lines 161-172). -/
def cssSection (css : List (Str × Str)) (hrefs : List Str) : Str :=
  List.intercalate ['\n'] ((consumeCss hrefs css).1.map linkStylesheet)

/-- `js.iter().map(|(k, v)| (*k, *v)).collect::<BTreeMap<_, _>>()`
(src/lib.rs line 174). -/
def jsFoldMap (js : List (Str × Str)) : List (Str × Str) :=
  js.foldl (fun a kv => mapInsert a kv.1 kv.2) []

/-- The string `<script type="importmap">`. -/
def scriptOpenTag : Str :=
  ['<', 's', 'c', 'r', 'i', 'p', 't', ' ', 't', 'y', 'p', 'e', '=', '"', 'i', 'm', 'p',
   'o', 'r', 't', 'm', 'a', 'p', '"', '>']

/-- The string `</script>`. -/
def scriptCloseTag : Str := ['<', '/', 's', 'c', 'r', 'i', 'p', 't', '>']

/-- The importmap script block (src/lib.rs line 176). -/
def scriptSection (js : List (Str × Str)) : Str :=
  scriptOpenTag ++ '\n' :: jsonImports (jsFoldMap js) ++ '\n' :: scriptCloseTag

/-- The modulepreload section (src/lib.rs lines 178-182). -/
def preloadSection (js : List (Str × Str)) : Str :=
  List.intercalate ['\n'] (js.map (fun kv => linkPreload kv.2))

/-- Join the non-empty sections with single newlines (src/lib.rs lines
184-188). -/
def joinSections (ss : List Str) : Str :=
  List.intercalate ['\n'] (ss.filter (fun s => s ≠ []))

/-- `ImportMap::transform_html` (src/lib.rs lines 144-191). The outer
`Option` layer records the reachable panic inside `extract_href_values`
(`none`); `some none` is Rust's `None`, `some (some out)` Rust's
`Some(out)`. -/
def transform_html (m : List (Str × Str)) (html : Str) : Option (Option Str) :=
  if m = [] then some (replace_between_markers html [])
  else
    let p := cssJsPartition m
    match extract_href_values html relStylesheet with
    | none => none
    | some hrefs =>
      some (replace_between_markers html
        (joinSections [cssSection p.1 hrefs, scriptSection p.2, preloadSection p.2]))

/-- `ImportMap::update_html_file` (src/lib.rs lines 132-142), with the file
store abstracted to explicit text passing: the result is Rust's
`Ok(changed)` paired with the file text after the call; I/O errors are out
of scope and the panic is again the outer `none`. -/
def update_html_file (m : List (Str × Str)) (fileText : Str) : Option (Bool × Str) :=
  match transform_html m fileText with
  | none => none
  | some none => some (false, fileText)
  | some (some updated) =>
    if updated ≠ fileText then some (true, updated) else some (false, fileText)

/-! ### Search lemmas -/

theorem findSub_bound {s pat : Str} {i : Nat} (h : findSub s pat = some i) :
    i + pat.length ≤ s.length := by
  induction s generalizing i with
  | nil =>
    simp only [findSub] at h
    split at h
    · next hp =>
      rw [List.isPrefixOf_iff_prefix] at hp
      obtain rfl := List.prefix_nil.mp hp
      simp_all
    · exact absurd h (by simp)
  | cons c t ih =>
    simp only [findSub] at h
    split at h
    · next hp =>
      rw [List.isPrefixOf_iff_prefix] at hp
      obtain rfl : i = 0 := by simpa using h.symm
      simpa using hp.length_le
    · obtain ⟨j, hj, rfl⟩ := Option.map_eq_some'.mp h
      have := ih hj
      simp only [List.length_cons]
      omega

theorem findSub_drop {s pat : Str} {i : Nat} (h : findSub s pat = some i) :
    pat <+: s.drop i := by
  induction s generalizing i with
  | nil =>
    simp only [findSub] at h
    split at h
    · next hp =>
      obtain rfl : i = 0 := by simpa using h.symm
      exact List.isPrefixOf_iff_prefix.mp (by assumption)
    · exact absurd h (by simp)
  | cons c t ih =>
    simp only [findSub] at h
    split at h
    · next hp =>
      obtain rfl : i = 0 := by simpa using h.symm
      exact List.isPrefixOf_iff_prefix.mp hp
    · obtain ⟨j, hj, rfl⟩ := Option.map_eq_some'.mp h
      simpa using ih hj

theorem findSub_take {s pat : Str} {i : Nat} (h : findSub s pat = some i) :
    s.take (i + pat.length) = s.take i ++ pat := by
  have hp := findSub_drop h
  rw [List.take_add]
  congr 1
  exact (List.prefix_iff_eq_take.mp hp).symm

theorem not_mem_of_lastIdxOf_eq_none {c : Char} {s : Str}
    (h : lastIdxOf c s = none) : c ∉ s := by
  induction s with
  | nil => simp
  | cons a t ih =>
    simp only [lastIdxOf] at h
    split at h
    · exact absurd h (by simp)
    · next hn =>
      split at h
      · exact absurd h (by simp)
      · next ha =>
        simp only [List.mem_cons, not_or]
        exact ⟨fun hc => ha hc.symm, ih hn⟩

theorem mem_of_lastIdxOf_eq_some {c : Char} {s : Str} {j : Nat}
    (h : lastIdxOf c s = some j) : c ∈ s := by
  induction s generalizing j with
  | nil => exact absurd h (by simp [lastIdxOf])
  | cons a t ih =>
    simp only [lastIdxOf] at h
    split at h
    · next j' hj' => exact List.mem_cons_of_mem _ (ih hj')
    · split at h
      · next ha => simp [ha]
      · exact absurd h (by simp)

theorem lastIdxOf_eq_none_of_not_mem {c : Char} {s : Str} (h : c ∉ s) :
    lastIdxOf c s = none := by
  cases hy : lastIdxOf c s with
  | none => rfl
  | some j => exact absurd (mem_of_lastIdxOf_eq_some hy) h

theorem lastIdxOf_append_cons {c : Char} (a b : Str) (h : c ∉ b) :
    lastIdxOf c (a ++ c :: b) = some a.length := by
  induction a with
  | nil =>
    simp [lastIdxOf, lastIdxOf_eq_none_of_not_mem h]
  | cons x a ih =>
    simp only [List.cons_append, lastIdxOf]
    rw [show a.append (c :: b) = a ++ c :: b from rfl, ih]
    simp

theorem lastIdxOf_decomp {c : Char} {s : Str} {j : Nat}
    (h : lastIdxOf c s = some j) :
    s.take j ++ c :: s.drop (j + 1) = s ∧ c ∉ s.drop (j + 1) := by
  induction s generalizing j with
  | nil => exact absurd h (by simp [lastIdxOf])
  | cons a t ih =>
    simp only [lastIdxOf] at h
    split at h
    · next j' hj' =>
      obtain rfl : j = j' + 1 := by simpa using h.symm
      obtain ⟨h1, h2⟩ := ih hj'
      refine ⟨?_, h2⟩
      simpa [List.take_succ_cons, List.drop_succ_cons] using h1
    · next hn =>
      split at h
      · next ha =>
        obtain rfl : j = 0 := by simpa using h.symm
        subst ha
        exact ⟨rfl, not_mem_of_lastIdxOf_eq_none hn⟩
      · exact absurd h (by simp)

/-! ### Slash-splitting lemmas -/

theorem splitOnSlash_ne_nil : ∀ s : Str, splitOnSlash s ≠ []
  | [] => by simp [splitOnSlash]
  | c :: rest => by
    simp only [splitOnSlash]
    split
    · simp
    · split <;> simp

theorem splitOnSlash_append (a b : Str) :
    splitOnSlash (a ++ '/' :: b) = splitOnSlash a ++ splitOnSlash b := by
  induction a with
  | nil => simp [splitOnSlash]
  | cons c a ih =>
    simp only [List.cons_append, splitOnSlash]
    split
    · rw [show a.append ('/' :: b) = a ++ '/' :: b from rfl, ih]; rfl
    · obtain ⟨s, sa, hsa⟩ : ∃ s sa, splitOnSlash a = s :: sa := by
        cases h : splitOnSlash a with
        | nil => exact absurd h (splitOnSlash_ne_nil a)
        | cons s sa => exact ⟨s, sa, rfl⟩
      rw [show a.append ('/' :: b) = a ++ '/' :: b from rfl, ih, hsa]
      simp

theorem splitOnSlash_no_slash {s : Str} (h : '/' ∉ s) : splitOnSlash s = [s] := by
  induction s with
  | nil => rfl
  | cons c rest ih =>
    simp only [List.mem_cons, not_or] at h
    simp only [splitOnSlash]
    rw [if_neg (fun hc => h.1 hc.symm), ih h.2]

theorem mem_splitOnSlash_no_slash {s t : Str} (ht : t ∈ splitOnSlash s) :
    '/' ∉ t := by
  induction s generalizing t with
  | nil =>
    simp only [splitOnSlash, List.mem_singleton] at ht
    simp [ht]
  | cons c rest ih =>
    simp only [splitOnSlash] at ht
    split at ht
    · rcases List.mem_cons.mp ht with rfl | hm
      · simp
      · exact ih hm
    · next hc =>
      rcases hr : splitOnSlash rest with _ | ⟨s', ss⟩
      · exact absurd hr (splitOnSlash_ne_nil rest)
      · rw [hr] at ht
        rcases List.mem_cons.mp ht with rfl | hm
        · have hs' : '/' ∉ s' := ih (by rw [hr]; exact List.mem_cons_self _ _)
          simp only [List.mem_cons, not_or]
          exact ⟨fun h => hc h.symm, hs'⟩
        · exact ih (by rw [hr]; exact List.mem_cons_of_mem _ hm)

theorem joinSegs_splitOnSlash (p : Str) : joinSegs (splitOnSlash p) = p := by
  induction p with
  | nil => rfl
  | cons c rest ih =>
    obtain ⟨s, sa, hsa⟩ : ∃ s sa, splitOnSlash rest = s :: sa := by
      cases h : splitOnSlash rest with
      | nil => exact absurd h (splitOnSlash_ne_nil rest)
      | cons s sa => exact ⟨s, sa, rfl⟩
    simp only [splitOnSlash]
    split
    · next hc =>
      rw [hsa, show joinSegs ([] :: s :: sa) = '/' :: joinSegs (s :: sa) from rfl,
        ← hsa, ih, hc]
    · next hc =>
      have hr : joinSegs (s :: sa) = rest := by rw [← hsa, ih]
      rw [hsa]
      cases sa with
      | nil =>
        have hs : s = rest := hr
        rw [show joinSegs [c :: s] = c :: s from rfl, hs]
      | cons s2 ss =>
        rw [show joinSegs ((c :: s) :: s2 :: ss) = (c :: s) ++ '/' :: joinSegs (s2 :: ss)
          from rfl]
        rw [show joinSegs (s :: s2 :: ss) = s ++ '/' :: joinSegs (s2 :: ss) from rfl] at hr
        rw [List.cons_append, hr]

theorem splitOnSlash_joinSegs {l : List Str} (hne : l ≠ [])
    (h : ∀ t ∈ l, '/' ∉ t) : splitOnSlash (joinSegs l) = l := by
  induction l with
  | nil => exact absurd rfl hne
  | cons s rest ih =>
    cases rest with
    | nil =>
      rw [show joinSegs [s] = s from rfl]
      exact splitOnSlash_no_slash (h s (List.mem_cons_self _ _))
    | cons s2 ss =>
      rw [show joinSegs (s :: s2 :: ss) = s ++ '/' :: joinSegs (s2 :: ss) from rfl]
      rw [splitOnSlash_append, splitOnSlash_no_slash (h s (List.mem_cons_self _ _))]
      rw [ih (by simp) (fun t ht => h t (List.mem_cons_of_mem _ ht))]
      rfl

theorem joinSegs_concat {l : List Str} (hne : l ≠ []) (x : Str) :
    joinSegs (l ++ [x]) = joinSegs l ++ '/' :: x := by
  induction l with
  | nil => exact absurd rfl hne
  | cons s rest ih =>
    cases rest with
    | nil => rfl
    | cons s2 ss =>
      have h1 : joinSegs ((s :: s2 :: ss) ++ [x]) =
          s ++ '/' :: joinSegs ((s2 :: ss) ++ [x]) := rfl
      have h2 : joinSegs (s :: s2 :: ss) = s ++ '/' :: joinSegs (s2 :: ss) := rfl
      rw [h1, ih (by simp), h2]
      simp

/-! ### Valid relative paths and path decomposition lemmas -/

/-- The relative paths the filesystem walk hands to `process_file`
(`path.strip_prefix(root)` results): every slash-separated segment is a real
name — nonempty and neither `.` nor `..`. -/
def validRelPath (p : Str) : Prop :=
  ∀ s ∈ splitOnSlash p, s ≠ [] ∧ s ≠ ['.'] ∧ s ≠ ['.', '.']

instance (p : Str) : Decidable (validRelPath p) := by
  unfold validRelPath
  infer_instance

theorem pathSegs_of_valid {p : Str} (h : validRelPath p) :
    pathSegs p = splitOnSlash p := by
  unfold pathSegs
  apply List.filter_eq_self.mpr
  intro s hs
  have hv := h s hs
  simp [hv.1, hv.2.1]

theorem pathSegs_append_mid (b p : Str) :
    pathSegs (b ++ '/' :: p) = pathSegs b ++ pathSegs p := by
  simp [pathSegs, splitOnSlash_append, List.filter_append]

theorem pathSegs_sub (p : Str) {s : Str} (hs : s ∈ pathSegs p) :
    s ∈ splitOnSlash p :=
  List.mem_of_mem_filter hs

/-! ### Hex digit lemmas -/

/-- The sixteen lowercase hexadecimal characters. -/
def lowercaseHexChars : Str := (List.range 16).map hexDigit

theorem hexDigit_mem {n : Nat} (h : n < 16) : hexDigit n ∈ lowercaseHexChars :=
  List.mem_map.mpr ⟨n, List.mem_range.mpr h, rfl⟩

theorem mem_toHexPad {w n : Nat} {c : Char} (h : c ∈ toHexPad w n) :
    c ∈ lowercaseHexChars := by
  simp only [toHexPad, List.mem_map] at h
  obtain ⟨i, _, rfl⟩ := h
  exact hexDigit_mem (Nat.mod_lt _ (by norm_num))

theorem mem_shortHash {c : List Nat} {ch : Char} (h : ch ∈ shortHash c) :
    ch ∈ lowercaseHexChars :=
  mem_toHexPad (List.mem_of_mem_take h)

theorem shortHash_length (c : List Nat) : (shortHash c).length = 8 := by
  simp [shortHash, toHexPad, HASH_LEN]

theorem not_dot_mem_shortHash (c : List Nat) : '.' ∉ shortHash c := by
  intro h
  have := mem_shortHash h
  revert this
  decide

theorem not_slash_mem_shortHash (c : List Nat) : '/' ∉ shortHash c := by
  intro h
  have := mem_shortHash h
  revert this
  decide

theorem shortHash_all_hexdigit (c : List Nat) :
    (shortHash c).all isHexDigitAscii = true := by
  rw [List.all_eq_true]
  intro ch hch
  have hall : ∀ x ∈ lowercaseHexChars, isHexDigitAscii x = true := by decide
  exact hall ch (mem_shortHash hch)

/-! ### Scanner decomposition -/

theorem extension?_decomp {p E : Str} (h : extension? p = some E) :
    ∃ f j, fileName? p = some f ∧ lastIdxOf '.' f = some j ∧ j ≠ 0 ∧
      E = f.drop (j + 1) ∧ fileStem? p = some (f.take j) := by
  unfold extension? at h
  split at h
  · simp at h
  · next f hf =>
    split at h
    · simp at h
    · next j hj =>
      split at h
      · simp at h
      · next hj0 =>
        refine ⟨f, j, hf, hj, hj0, (Option.some.inj h).symm, ?_⟩
        unfold fileStem?
        rw [hf]
        simp [hj, hj0]

theorem process_file_entry_some {p : Str} {c : List Nat} {b : Str} {k v : Str}
    (h : process_file_entry p c b = some (k, v)) :
    ∃ f j, fileName? p = some f ∧ lastIdxOf '.' f = some j ∧ j ≠ 0 ∧
      f.drop (j + 1) ∈ EXTENSIONS ∧
      k = b ++ '/' :: p ∧
      ((2 ≤ (pathSegs p).length ∧
        v = b ++ '/' :: joinSegs (pathSegs p).dropLast ++ '/' :: f.take j ++
          '.' :: shortHash c ++ '.' :: f.drop (j + 1)) ∨
       ((pathSegs p).length < 2 ∧
        v = b ++ '/' :: f.take j ++ '.' :: shortHash c ++ '.' :: f.drop (j + 1))) := by
  unfold process_file_entry at h
  dsimp only at h
  split at h
  case isFalse => exact absurd h (by simp)
  case isTrue hext =>
    have hE : extension? p = some ((extension? p).getD []) := by
      cases hx : extension? p with
      | none =>
        rw [hx] at hext
        exact absurd hext (by decide)
      | some E => rfl
    obtain ⟨f, j, hf, hj, hj0, hEdrop, hstem⟩ := extension?_decomp hE
    split at h
    case isTrue => exact absurd h (by simp)
    case isFalse =>
      split at h
      case isTrue => exact absurd h (by simp)
      case isFalse =>
        split at h
        case isTrue => exact absurd h (by simp)
        case isFalse =>
          split at h
          case isTrue => exact absurd h (by simp)
          case isFalse =>
            split at h
            · simp at h
            · next stem hstem' =>
              have hsf : stem = f.take j := by
                rw [hstem'] at hstem
                exact Option.some.inj hstem
              subst hsf
              split at h
              case isTrue hlen =>
                simp only [Option.some.injEq, Prod.mk.injEq] at h
                exact ⟨f, j, hf, hj, hj0, hEdrop ▸ hext, h.1.symm,
                  Or.inl ⟨hlen, by rw [← hEdrop]; exact h.2.symm⟩⟩
              case isFalse hlen =>
                simp only [Option.some.injEq, Prod.mk.injEq] at h
                exact ⟨f, j, hf, hj, hj0, hEdrop ▸ hext, h.1.symm,
                  Or.inr ⟨by omega, by rw [← hEdrop]; exact h.2.symm⟩⟩

/-! ### URL decomposition lemmas -/

theorem lastIdxOf_lt_length {c : Char} {s : Str} {j : Nat}
    (h : lastIdxOf c s = some j) : j < s.length := by
  induction s generalizing j with
  | nil => exact absurd h (by simp [lastIdxOf])
  | cons a t ih =>
    simp only [lastIdxOf] at h
    split at h
    · next j' hj' =>
      obtain rfl : j = j' + 1 := by simpa using h.symm
      simpa using ih hj'
    · split at h
      · obtain rfl : j = 0 := by simpa using h.symm
        simp
      · exact absurd h (by simp)

theorem drop_append_cons (A B : Str) (x : Char) :
    (A ++ x :: B).drop (A.length + 1) = B := by
  rw [show A.length + 1 = (A ++ [x]).length by simp,
    show A ++ x :: B = (A ++ [x]) ++ B by simp]
  exact List.drop_left _ _

theorem fileName?_some_split {p f : Str} (h : fileName? p = some f) :
    (pathSegs p).getLast? = some f ∧ f ≠ ['.', '.'] := by
  unfold fileName? at h
  split at h
  · simp at h
  · next s hs =>
    split at h
    · simp at h
    · next hne =>
      obtain rfl := Option.some.inj h
      exact ⟨hs, hne⟩

theorem pathSegs_single {tail : Str} (h1 : '/' ∉ tail) (h2 : tail ≠ [])
    (h3 : tail ≠ ['.']) : pathSegs tail = [tail] := by
  simp [pathSegs, splitOnSlash_no_slash h1, h2, h3]

theorem fileName?_append_seg {X tail : Str} (h1 : '/' ∉ tail) (h2 : tail ≠ [])
    (h3 : tail ≠ ['.']) (h4 : tail ≠ ['.', '.']) :
    fileName? (X ++ '/' :: tail) = some tail := by
  unfold fileName?
  rw [pathSegs_append_mid, pathSegs_single h1 h2 h3,
    List.getLast?_append_of_ne_nil _ (by simp)]
  simp [h4]

theorem getLast?_ne_slash {tail : Str} (h1 : '/' ∉ tail) :
    tail.getLast? ≠ some '/' := by
  intro hg
  exact h1 (List.mem_of_mem_getLast? hg)

theorem trimTrailingSlashes_eq_self {s : Str} (h : s.getLast? ≠ some '/') :
    trimTrailingSlashes s = s := by
  unfold trimTrailingSlashes
  rw [← List.head?_reverse] at h
  cases hr : s.reverse with
  | nil => simpa using congrArg List.reverse hr.symm
  | cons a t =>
    rw [hr] at h
    have ha : a ≠ '/' := by
      intro hc
      exact h (by rw [hc]; rfl)
    rw [List.dropWhile_cons]
    simp only [ha, decide_False, Bool.false_eq_true, if_false]
    rw [← hr, List.reverse_reverse]

theorem withFileName_append_seg {X tail : Str} (new : Str) (h1 : '/' ∉ tail)
    (h2 : tail ≠ []) : withFileName (X ++ '/' :: tail) new = X ++ '/' :: new := by
  have htrim : trimTrailingSlashes (X ++ '/' :: tail) = X ++ '/' :: tail := by
    apply trimTrailingSlashes_eq_self
    rw [show X ++ '/' :: tail = (X ++ ['/']) ++ tail by simp,
      List.getLast?_append_of_ne_nil _ h2]
    exact getLast?_ne_slash h1
  unfold withFileName
  dsimp only
  rw [htrim, lastIdxOf_append_cons X tail h1]
  show (X ++ '/' :: tail).take (X.length + 1) ++ new = X ++ '/' :: new
  rw [List.take_append 1]
  simp

theorem ext_stem_of_fileName {v A B : Str} (hfn : fileName? v = some (A ++ '.' :: B))
    (hB : '.' ∉ B) (hA : A ≠ []) :
    extension? v = some B ∧ fileStem? v = some A := by
  have hli : lastIdxOf '.' (A ++ '.' :: B) = some A.length := lastIdxOf_append_cons A B hB
  have hj0 : A.length ≠ 0 := by simpa using hA
  have hdrop : (A ++ '.' :: B).drop (A.length + 1) = B := drop_append_cons A B '.'
  constructor
  · unfold extension?
    rw [hfn]
    simp [hli, hj0, hdrop]
  · unfold fileStem?
    rw [hfn]
    simp [hli, hj0, List.take_left]

theorem fileName?_of_url {b p f : Str} (hf : fileName? p = some f) :
    fileName? (b ++ '/' :: p) = some f := by
  obtain ⟨hg, hne⟩ := fileName?_some_split hf
  unfold fileName?
  rw [pathSegs_append_mid,
    List.getLast?_append_of_ne_nil _ (by intro h0; rw [h0] at hg; simp at hg), hg]
  simp [hne]

theorem extensions_facts :
    ∀ e ∈ EXTENSIONS, '/' ∉ e ∧ '.' ∉ e ∧ e ≠ [] ∧ e ≠ ['.'] ∧ e ≠ ['.', '.'] ∧
      2 ≤ e.length := by decide

/-! ### Claim C3 -/

/-- C3: round-trip — for every file accepted by the scanner (any valid
relative path, byte contents and base url), `strip_hash` applied to the
produced fingerprinted URL returns some path whose filename equals the
filename portion of the corresponding original URL. -/
theorem c3_strip_hash_roundtrip {p : Str} {c : List Nat} {b k v : Str}
    (h : process_file_entry p c b = some (k, v)) :
    ∃ p', strip_hash v = some p' ∧ fileName? p' = fileName? k := by
  obtain ⟨f, j, hf, hj, hj0, hext, hk, hv⟩ := process_file_entry_some h
  set stem := f.take j with hstem_def
  set ext := f.drop (j + 1) with hext_def
  set H := shortHash c with hH_def
  have hsplit := fileName?_some_split hf
  have hfmem : f ∈ splitOnSlash p := pathSegs_sub p (List.mem_of_mem_getLast? hsplit.1)
  have hfslash : '/' ∉ f := mem_splitOnSlash_no_slash hfmem
  have hdec := lastIdxOf_decomp hj
  have hjlt : j < f.length := lastIdxOf_lt_length hj
  have hstem_len : stem.length = j := by
    rw [hstem_def, List.length_take]
    omega
  have hstem_ne : stem ≠ [] := by
    intro h0
    rw [h0] at hstem_len
    exact hj0 (by simpa using hstem_len.symm)
  have hstem_slash : '/' ∉ stem := fun hm => hfslash (List.mem_of_mem_take hm)
  have hext_slash : '/' ∉ ext := fun hm => hfslash (List.mem_of_mem_drop hm)
  obtain ⟨_, hext_dot, hext_ne, _, _, hext_len⟩ := extensions_facts _ hext
  have hH_dot : '.' ∉ H := not_dot_mem_shortHash c
  have hH_slash : '/' ∉ H := not_slash_mem_shortHash c
  have hH_len : H.length = 8 := shortHash_length c
  have hf_eq : stem ++ '.' :: ext = f := hdec.1
  set nn := stem ++ '.' :: H ++ '.' :: ext with hnn_def
  have hnn2 : nn = (stem ++ '.' :: H) ++ '.' :: ext := by
    simp [hnn_def]
  have hnn_slash : '/' ∉ nn := by
    intro hm
    rw [hnn_def] at hm
    simp only [List.cons_append, List.append_assoc, List.mem_append, List.mem_cons] at hm
    rcases hm with hm | hm | hm | hm | hm
    · exact hstem_slash hm
    · exact absurd hm (by decide)
    · exact hH_slash hm
    · exact absurd hm (by decide)
    · exact hext_slash hm
  have hstem_pos : 1 ≤ stem.length := List.length_pos.mpr hstem_ne
  have hnn_big : 2 < nn.length := by
    simp only [hnn_def, List.length_append, List.length_cons]
    omega
  have hnn_ne : nn ≠ [] := by
    intro h0
    rw [h0] at hnn_big
    simp at hnn_big
  have hnn_nd : nn ≠ ['.'] := by
    intro h0
    rw [h0] at hnn_big
    simp at hnn_big
  have hnn_ndd : nn ≠ ['.', '.'] := by
    intro h0
    rw [h0] at hnn_big
    simp at hnn_big
  obtain ⟨X, hvX⟩ : ∃ X, v = X ++ '/' :: nn := by
    rcases hv with ⟨_, hveq⟩ | ⟨_, hveq⟩
    · exact ⟨b ++ '/' :: joinSegs (pathSegs p).dropLast, by rw [hveq]; simp [hnn_def]⟩
    · exact ⟨b, by rw [hveq]; simp [hnn_def]⟩
  have hfnv : fileName? v = some nn := by
    rw [hvX]
    exact fileName?_append_seg hnn_slash hnn_ne hnn_nd hnn_ndd
  have hes := ext_stem_of_fileName (v := v) (A := stem ++ '.' :: H) (B := ext)
    (by rw [← hnn2]; exact hfnv) hext_dot (by simp)
  obtain ⟨hext_v, hstem_v⟩ := hes
  have hli2 : lastIdxOf '.' (stem ++ '.' :: H) = some stem.length :=
    lastIdxOf_append_cons stem H hH_dot
  have hdrop2 : (stem ++ '.' :: H).drop (stem.length + 1) = H := drop_append_cons stem H '.'
  have htake2 : (stem ++ '.' :: H).take stem.length = stem := List.take_left stem ('.' :: H)
  have hsh : strip_hash v = some (withFileName v (stem ++ '.' :: ext)) := by
    unfold strip_hash
    rw [hstem_v, hext_v]
    simp only [hext, if_true]
    rw [hli2]
    simp only [hdrop2, htake2]
    rw [if_pos ⟨by rw [hH_len]; rfl, by rw [hH_def]; exact shortHash_all_hexdigit c⟩]
  have hwfn : withFileName v (stem ++ '.' :: ext) = X ++ '/' :: (stem ++ '.' :: ext) := by
    rw [hvX]
    exact withFileName_append_seg _ hnn_slash hnn_ne
  have hse_slash : '/' ∉ stem ++ '.' :: ext := by
    intro hm
    simp only [List.mem_append, List.mem_cons] at hm
    rcases hm with hm | hm | hm
    · exact hstem_slash hm
    · exact absurd hm (by decide)
    · exact hext_slash hm
  have hse_big : 2 < (stem ++ '.' :: ext).length := by
    simp only [List.length_append, List.length_cons]
    omega
  have hfn' : fileName? (X ++ '/' :: (stem ++ '.' :: ext)) = some (stem ++ '.' :: ext) := by
    apply fileName?_append_seg hse_slash
    · intro h0
      rw [h0] at hse_big
      simp at hse_big
    · intro h0
      rw [h0] at hse_big
      simp at hse_big
    · intro h0
      rw [h0] at hse_big
      simp at hse_big
  have hfk : fileName? k = some f := by
    rw [hk]
    exact fileName?_of_url hf
  refine ⟨X ++ '/' :: (stem ++ '.' :: ext), by rw [hsh, hwfn], ?_⟩
  rw [hfn', hfk, hf_eq]


/-- Witness for C3 at the file `assets/app.js` with contents `[104, 105]`
and base url `/s`. -/
theorem c3_roundtrip_witness :
    ∃ p', strip_hash ['/', 's', '/', 'a', 's', 's', 'e', 't', 's', '/', 'a', 'p', 'p', '.', '0', '8', 'b', 'a', '5', 'f', '0', '7', '.', 'j', 's'] = some p' ∧
      fileName? p' = fileName? ['/', 's', '/', 'a', 's', 's', 'e', 't', 's', '/', 'a', 'p', 'p', '.', 'j', 's'] :=
  c3_strip_hash_roundtrip
    (p := ['a', 's', 's', 'e', 't', 's', '/', 'a', 'p', 'p', '.', 'j', 's'])
    (c := [104, 105]) (b := ['/', 's']) (by decide)

/-! ### Claim C8 -/

/-- C8: hash format — for every accepted file, the fingerprinted URL is the
original URL with the filename stem augmented to `stem.hash.ext`, where the
hash is exactly `HASH_LEN` (8) lowercase hexadecimal characters placed
directly before the final extension and is a function of the file bytes
alone (`shortHash` takes only the contents). -/
theorem c8_hash_format {p : Str} {c : List Nat} {b k v : Str}
    (hvalid : validRelPath p)
    (h : process_file_entry p c b = some (k, v)) :
    ∃ stem ext, fileStem? k = some stem ∧ extension? k = some ext ∧
      v = withFileName k (stem ++ '.' :: shortHash c ++ '.' :: ext) ∧
      (shortHash c).length = HASH_LEN ∧
      ∀ ch ∈ shortHash c, ch ∈ lowercaseHexChars := by
  obtain ⟨f, j, hf, hj, hj0, hext, hk, hv⟩ := process_file_entry_some h
  set stem := f.take j with hstem_def
  set ext := f.drop (j + 1) with hext_def
  have hsplit := fileName?_some_split hf
  have hfmem : f ∈ splitOnSlash p := pathSegs_sub p (List.mem_of_mem_getLast? hsplit.1)
  have hfslash : '/' ∉ f := mem_splitOnSlash_no_slash hfmem
  have hfne : f ≠ [] := (hvalid f hfmem).1
  have hdec := lastIdxOf_decomp hj
  have hjlt : j < f.length := lastIdxOf_lt_length hj
  have hstem_len : stem.length = j := by
    rw [hstem_def, List.length_take]
    omega
  have hstem_ne : stem ≠ [] := by
    intro h0
    rw [h0] at hstem_len
    exact hj0 (by simpa using hstem_len.symm)
  obtain ⟨_, hext_dot, hext_ne, _, _, hext_len⟩ := extensions_facts _ hext
  have hf_eq : stem ++ '.' :: ext = f := hdec.1
  have hfk : fileName? k = some f := by
    rw [hk]
    exact fileName?_of_url hf
  obtain ⟨hext_k, hstem_k⟩ :=
    ext_stem_of_fileName (v := k) (A := stem) (B := ext)
      (by rw [hf_eq]; exact hfk) hext_dot hstem_ne
  set nn := stem ++ '.' :: shortHash c ++ '.' :: ext with hnn_def
  have hsegs : pathSegs p = splitOnSlash p := pathSegs_of_valid hvalid
  have hsegs_last : (pathSegs p).getLast? = some f := hsplit.1
  have hsegs_ne : pathSegs p ≠ [] := by
    intro h0
    rw [h0] at hsegs_last
    simp at hsegs_last
  have hsegs_decomp : (pathSegs p).dropLast ++ [f] = pathSegs p := by
    rcases (List.getLast?_eq_getLast_of_ne_nil hsegs_ne) with hgl
    rw [hgl] at hsegs_last
    have := Option.some.inj hsegs_last
    rw [← this]
    exact List.dropLast_append_getLast hsegs_ne
  have hp_eq : joinSegs (pathSegs p) = p := by
    rw [hsegs]
    exact joinSegs_splitOnSlash p
  have hwfn : v = withFileName k nn := by
    rcases hv with ⟨hlen2, hveq⟩ | ⟨hlen1, hveq⟩
    · have hinit_ne : (pathSegs p).dropLast ≠ [] := by
        intro h0
        have := congrArg List.length hsegs_decomp
        rw [h0] at this
        simp at this
        omega
      have hpj : p = joinSegs (pathSegs p).dropLast ++ '/' :: f := by
        conv_lhs => rw [← hp_eq, ← hsegs_decomp]
        rw [joinSegs_concat hinit_ne]
      have hk2 : k = (b ++ '/' :: joinSegs (pathSegs p).dropLast) ++ '/' :: f := by
        conv_lhs => rw [hk]
        conv_lhs => rw [hpj]
        simp
      rw [hk2, withFileName_append_seg _ hfslash hfne, hveq]
      simp [hnn_def]
    · have hsegs_one : pathSegs p = [f] := by
        have hl1 : (pathSegs p).length = 1 := by
          have := List.length_pos.mpr hsegs_ne
          omega
        rcases hx : pathSegs p with _ | ⟨a, t⟩
        · exact absurd hx hsegs_ne
        · rw [hx] at hl1 hsegs_last
          cases t with
          | nil =>
            simpa using congrArg (fun o => o.getD []) hsegs_last
          | cons u w => simp at hl1
      have hpf : p = f := by
        rw [← hp_eq, hsegs_one]
        rfl
      rw [hk, hpf, withFileName_append_seg _ hfslash hfne, hveq, hnn_def]
      simp
  exact ⟨stem, ext, hstem_k, hext_k, hwfn, by rw [shortHash_length]; rfl,
    fun ch hch => mem_shortHash hch⟩


/-- Witness for C8 at the file `assets/app.js` with contents `[104, 105]`
and base url `/s`. -/
theorem c8_hash_format_witness :
    ∃ stem ext, fileStem? ['/', 's', '/', 'a', 's', 's', 'e', 't', 's', '/', 'a', 'p', 'p', '.', 'j', 's'] = some stem ∧
      extension? ['/', 's', '/', 'a', 's', 's', 'e', 't', 's', '/', 'a', 'p', 'p', '.', 'j', 's'] = some ext ∧
      ['/', 's', '/', 'a', 's', 's', 'e', 't', 's', '/', 'a', 'p', 'p', '.', '0', '8', 'b', 'a', '5', 'f', '0', '7', '.', 'j', 's'] =
        withFileName ['/', 's', '/', 'a', 's', 's', 'e', 't', 's', '/', 'a', 'p', 'p', '.', 'j', 's']
          (stem ++ '.' :: shortHash [104, 105] ++ '.' :: ext) ∧
      (shortHash [104, 105]).length = HASH_LEN ∧
      ∀ ch ∈ shortHash [104, 105], ch ∈ lowercaseHexChars :=
  c8_hash_format (p := ['a', 's', 's', 'e', 't', 's', '/', 'a', 'p', 'p', '.', 'j', 's']) (c := [104, 105])
    (b := ['/', 's']) (by decide) (by decide)

/-! ### Claim C4 -/

/-- C4 counterexample: the claim says every root-level file with a script
extension (js or mjs) is excluded, but `app.mjs` at the scan root passes the
filter — the scanned map contains an entry for it (the code only tests
`ext == "js"`). -/
theorem c4_root_mjs_included_cx :
    extension? ['a', 'p', 'p', '.', 'm', 'j', 's'] = some extMjs ∧
    (pathSegs ['a', 'p', 'p', '.', 'm', 'j', 's']).length ≤ 1 ∧
    lookupMap (scan [(['a', 'p', 'p', '.', 'm', 'j', 's'], [])] [])
      ['/', 'a', 'p', 'p', '.', 'm', 'j', 's'] ≠ none := by
  decide

/-- C4 (amended): the root-level exclusion applies exactly to the extension
`js` — a file whose extension is `js` sitting directly at the scan root is
excluded by `process_file`; root-level `mjs` files are not excluded. -/
theorem c4_root_js_excluded {p : Str} (c : List Nat) (b : Str)
    (hext : extension? p = some extJs) (hroot : (pathSegs p).length ≤ 1) :
    process_file_entry p c b = none := by
  unfold process_file_entry
  dsimp only
  rw [hext]
  simp only [Option.getD_some]
  rw [if_pos (by decide), if_pos ⟨trivial, hroot⟩]

/-- Witness for the amended C4 at the root file `app.js`. -/
theorem c4_root_js_excluded_witness :
    process_file_entry ['a', 'p', 'p', '.', 'j', 's'] [] [] = none :=
  c4_root_js_excluded [] [] (by decide) (by decide)

/-! ### Claim C9 -/

/-- C9: `update_html_file` reports no change and leaves the text unchanged
both when the transform fails (missing marker pair) and when the transformed
text equals the existing text — the two cases are indistinguishable at this
interface. -/
theorem c9_update_noop (m : List (Str × Str)) (t : Str) :
    (transform_html m t = some none → update_html_file m t = some (false, t)) ∧
    (transform_html m t = some (some t) → update_html_file m t = some (false, t)) := by
  constructor
  · intro h
    unfold update_html_file
    rw [h]
  · intro h
    unfold update_html_file
    rw [h]
    simp

/-- Witness for C9: a document without markers, and a document the transform
maps to itself. -/
theorem c9_update_noop_witness :
    update_html_file [] [] = some (false, []) ∧
    update_html_file [] (MARKER_OPEN ++ '\n' :: '\n' :: MARKER_CLOSE) =
      some (false, MARKER_OPEN ++ '\n' :: '\n' :: MARKER_CLOSE) :=
  ⟨(c9_update_noop [] []).1 (by decide),
   (c9_update_noop [] (MARKER_OPEN ++ '\n' :: '\n' :: MARKER_CLOSE)).2 (by decide)⟩

/-! ### Claim C7 -/

/-- The spec's success condition: the open marker occurs, and the close
marker occurs after the end of its first occurrence. -/
def markersPresent (html : Str) : Bool :=
  match findSub html MARKER_OPEN with
  | none => false
  | some s => (findSub (html.drop (s + MARKER_OPEN.length)) MARKER_CLOSE).isSome

/-- The degenerate layout that makes the stylesheet-extraction slice of
`extract_href_values` panic: a close marker strictly before the first open
marker. -/
def closeBeforeOpen (html : Str) : Bool :=
  match findSub html MARKER_OPEN, findSub html MARKER_CLOSE with
  | some s, some e => decide (e < s)
  | _, _ => false

theorem replace_between_markers_none_iff (html c : Str) :
    replace_between_markers html c = none ↔ markersPresent html = false := by
  unfold replace_between_markers markersPresent
  cases h1 : findSub html MARKER_OPEN with
  | none => simp
  | some s =>
    cases h2 : findSub (html.drop (s + MARKER_OPEN.length)) MARKER_CLOSE with
    | none => simp [h2]
    | some i => simp [h2]

theorem replace_some_of_markers {html : Str} (h : markersPresent html = true)
    (c : Str) : ∃ out, replace_between_markers html c = some out := by
  cases hr : replace_between_markers html c with
  | none =>
    rw [replace_between_markers_none_iff] at hr
    rw [hr] at h
    simp at h
  | some out => exact ⟨out, rfl⟩

theorem extract_href_values_some (html rel : Str)
    (hsafe : closeBeforeOpen html = false) :
    ∃ L, extract_href_values html rel = some L := by
  unfold extract_href_values regionOf
  have hle : (findSub html MARKER_OPEN).getD 0 ≤
      (findSub html MARKER_CLOSE).getD html.length := by
    unfold closeBeforeOpen at hsafe
    cases h1 : findSub html MARKER_OPEN with
    | none => simp
    | some s =>
      cases h2 : findSub html MARKER_CLOSE with
      | none =>
        have hb := findSub_bound h1
        simp only [Option.getD_some, Option.getD_none]
        omega
      | some e =>
        rw [h1, h2] at hsafe
        simp only [Option.getD_some]
        simp at hsafe
        omega
  rw [if_pos hle]
  exact ⟨_, rfl⟩

theorem transform_html_eq_replace (m : List (Str × Str)) (html : Str)
    (hsafe : m = [] ∨ closeBeforeOpen html = false) :
    ∃ C, transform_html m html = some (replace_between_markers html C) := by
  by_cases hm : m = []
  · subst hm
    exact ⟨[], by unfold transform_html; simp⟩
  · have hsafe' := hsafe.resolve_left hm
    obtain ⟨L, hL⟩ := extract_href_values_some html relStylesheet hsafe'
    refine ⟨joinSections [cssSection (cssJsPartition m).1 L,
      scriptSection (cssJsPartition m).2, preloadSection (cssJsPartition m).2], ?_⟩
    unfold transform_html
    rw [if_neg hm]
    dsimp only
    rw [hL]

/-- C7 counterexample: a document whose first close marker precedes its first
open marker, while a close marker does follow the open marker — the claim
says the transform returns Some, but the code's `html[start..end]` slice in
`extract_href_values` has start > end and panics (modelled as the outer
`none`). -/
theorem c7_panic_cx :
    markersPresent (MARKER_CLOSE ++ MARKER_OPEN ++ MARKER_CLOSE) = true ∧
    transform_html [(['a'], ['b'])] (MARKER_CLOSE ++ MARKER_OPEN ++ MARKER_CLOSE) =
      none := by
  decide

/-- C7 (amended): provided the import map is empty or no close marker
precedes the first open marker (otherwise the extraction slice panics),
`transform_html` returns Rust-`None` exactly when the open marker is absent
or no close marker follows it, and returns `Some` when both are present. -/
theorem c7_marker_condition (m : List (Str × Str)) (html : Str)
    (hsafe : m = [] ∨ closeBeforeOpen html = false) :
    (transform_html m html = some none ↔ markersPresent html = false) ∧
    (markersPresent html = true → ∃ out, transform_html m html = some (some out)) := by
  obtain ⟨C, hC⟩ := transform_html_eq_replace m html hsafe
  constructor
  · constructor
    · intro h
      rw [hC] at h
      exact (replace_between_markers_none_iff html C).mp (Option.some.inj h)
    · intro h
      rw [hC, (replace_between_markers_none_iff html C).mpr h]
  · intro h
    obtain ⟨out, hout⟩ := replace_some_of_markers h C
    exact ⟨out, by rw [hC, hout]⟩

/-- Witness for the amended C7 on a well-formed document with an empty map. -/
theorem c7_marker_condition_witness :
    (transform_html [] (MARKER_OPEN ++ MARKER_CLOSE) = some none ↔
      markersPresent (MARKER_OPEN ++ MARKER_CLOSE) = false) ∧
    (markersPresent (MARKER_OPEN ++ MARKER_CLOSE) = true →
      ∃ out, transform_html [] (MARKER_OPEN ++ MARKER_CLOSE) = some (some out)) :=
  c7_marker_condition [] (MARKER_OPEN ++ MARKER_CLOSE) (Or.inl rfl)

/-! ### Claim C2 -/

theorem transform_some_inv {m : List (Str × Str)} {html out : Str}
    (h : transform_html m html = some (some out)) :
    ∃ C, replace_between_markers html C = some out := by
  unfold transform_html at h
  split at h
  · exact ⟨[], Option.some.inj h⟩
  · dsimp only at h
    split at h
    · simp at h
    · exact ⟨_, Option.some.inj h⟩

theorem append_shape_facts (T A B D : Str) :
    T <+: T ++ '\n' :: A ++ '\n' :: B ++ D ∧
    D <:+ T ++ '\n' :: A ++ '\n' :: B ++ D := by
  constructor
  · exact ((List.prefix_append T _).trans (List.prefix_append _ _)).trans
      (List.prefix_append _ _)
  · exact List.suffix_append _ _

/-- C2: the transform touches only the text strictly between the markers —
whenever it succeeds, the output keeps the input's prefix through the end of
the (first) open marker and the input's suffix from the first close marker
found after it, and both marker strings appear verbatim in the output. -/
theorem c2_frame_between_markers {m : List (Str × Str)} {html out : Str} {s i : Nat}
    (hs : findSub html MARKER_OPEN = some s)
    (hi : findSub (html.drop (s + MARKER_OPEN.length)) MARKER_CLOSE = some i)
    (hout : transform_html m html = some (some out)) :
    html.take (s + MARKER_OPEN.length) <+: out ∧
    html.drop (i + (s + MARKER_OPEN.length)) <:+ out ∧
    (∃ a b, out = a ++ MARKER_OPEN ++ b) ∧
    (∃ a b, out = a ++ MARKER_CLOSE ++ b) := by
  obtain ⟨C, hC⟩ := transform_some_inv hout
  unfold replace_between_markers at hC
  rw [hs] at hC
  dsimp only at hC
  rw [hi] at hC
  dsimp only at hC
  have heq := Option.some.inj hC
  subst heq
  have hshape := append_shape_facts (html.take (s + MARKER_OPEN.length))
    (indentLines ((html.take s).drop (match lastIdxOf '\n' (html.take s) with
      | some j => j + 1
      | none => 0)) C)
    ((html.take s).drop (match lastIdxOf '\n' (html.take s) with
      | some j => j + 1
      | none => 0))
    (html.drop (i + (s + MARKER_OPEN.length)))
  refine ⟨hshape.1, hshape.2, ?_, ?_⟩
  · obtain ⟨t, ht⟩ := hshape.1
    exact ⟨html.take s, t, by rw [← ht, findSub_take hs]⟩
  · obtain ⟨pre, hpre⟩ := hshape.2
    have hcl : MARKER_CLOSE <+: html.drop (i + (s + MARKER_OPEN.length)) := by
      have := findSub_drop hi
      rw [List.drop_drop] at this
      rwa [Nat.add_comm] at this
    obtain ⟨t, ht⟩ := hcl
    exact ⟨pre, t, by rw [← hpre, ← ht]; simp⟩

/-- Witness for C2 on the minimal marker pair with an empty map. -/
theorem c2_frame_witness :
    (MARKER_OPEN ++ MARKER_CLOSE).take (0 + MARKER_OPEN.length) <+:
      (MARKER_OPEN ++ '\n' :: '\n' :: MARKER_CLOSE) ∧
    (MARKER_OPEN ++ MARKER_CLOSE).drop (0 + (0 + MARKER_OPEN.length)) <:+
      (MARKER_OPEN ++ '\n' :: '\n' :: MARKER_CLOSE) ∧
    (∃ a b, MARKER_OPEN ++ '\n' :: '\n' :: MARKER_CLOSE = a ++ MARKER_OPEN ++ b) ∧
    (∃ a b, MARKER_OPEN ++ '\n' :: '\n' :: MARKER_CLOSE = a ++ MARKER_CLOSE ++ b) :=
  @c2_frame_between_markers [] (MARKER_OPEN ++ MARKER_CLOSE)
    (MARKER_OPEN ++ '\n' :: '\n' :: MARKER_CLOSE) 0 0
    (by decide) (by decide) (by decide)

/-! ### Claim C5 -/

theorem foldl_partition_snd (m : List (Str × Str))
    (h : ∀ kv ∈ m, extension? kv.1 = some extCss)
    (acc : List (Str × Str) × List (Str × Str)) :
    (List.foldl (fun acc kv =>
      match extension? kv.1 with
      | some e =>
        if e = extCss then (mapInsert acc.1 kv.1 kv.2, acc.2)
        else if e = extJs ∨ e = extMjs then (acc.1, acc.2 ++ [kv])
        else acc
      | none => acc) acc m).2 = acc.2 := by
  induction m generalizing acc with
  | nil => rfl
  | cons kv rest ih =>
    have hkv := h kv (List.mem_cons_self _ _)
    simp only [List.foldl_cons, hkv]
    exact ih (fun x hm => h x (List.mem_cons_of_mem _ hm)) _

theorem cssJsPartition_snd_nil {m : List (Str × Str)}
    (h : ∀ kv ∈ m, extension? kv.1 = some extCss) :
    (cssJsPartition m).2 = [] := by
  unfold cssJsPartition
  exact foldl_partition_snd m h ([], [])

theorem joinSections_drop_empty_last (a s : Str) :
    joinSections [a, s, []] = joinSections [a, s] := by
  unfold joinSections
  rw [show ([a, s, []] : List Str) = [a, s] ++ [[]] from rfl, List.filter_append]
  simp

/-- C5 counterexample: a non-empty, all-stylesheet import map still produces
a `<script type="importmap">` block (with an empty imports object) between
the markers — the claim says no script block appears. -/
theorem c5_allcss_script_block_cx :
    (∀ kv ∈ ([(['/', 'a', '.', 'c', 's', 's'], ['/', 'b', '.', 'c', 's', 's'])] :
        List (Str × Str)), extension? kv.1 = some extCss) ∧
    (transform_html [(['/', 'a', '.', 'c', 's', 's'], ['/', 'b', '.', 'c', 's', 's'])]
        (MARKER_OPEN ++ MARKER_CLOSE)).map
      (Option.map (fun out => isSubstr out scriptOpenTag)) = some (some true) := by
  decide

/-- C5 (amended): for a non-empty all-stylesheet map the scripts/modules
partition is empty, so the modulepreload section is empty (omitted), but the
importmap script block is still emitted, with an empty imports object. -/
theorem c5_allcss_sections {m : List (Str × Str)} {html : Str} {hrefs : List Str}
    (hm : m ≠ []) (hcss : ∀ kv ∈ m, extension? kv.1 = some extCss)
    (hex : extract_href_values html relStylesheet = some hrefs) :
    (cssJsPartition m).2 = [] ∧
    preloadSection (cssJsPartition m).2 = [] ∧
    scriptSection (cssJsPartition m).2 =
      scriptOpenTag ++ '\n' :: jsonImports [] ++ '\n' :: scriptCloseTag ∧
    transform_html m html = some (replace_between_markers html
      (joinSections [cssSection (cssJsPartition m).1 hrefs,
        scriptOpenTag ++ '\n' :: jsonImports [] ++ '\n' :: scriptCloseTag])) := by
  have hjs := cssJsPartition_snd_nil hcss
  refine ⟨hjs, by rw [hjs]; rfl, by rw [hjs]; rfl, ?_⟩
  unfold transform_html
  rw [if_neg hm]
  dsimp only
  rw [hex, hjs]
  show some (replace_between_markers html
      (joinSections [cssSection (cssJsPartition m).1 hrefs, scriptSection [],
        preloadSection []])) = _
  rw [show scriptSection [] =
    scriptOpenTag ++ '\n' :: jsonImports [] ++ '\n' :: scriptCloseTag from rfl]
  rw [show preloadSection [] = ([] : Str) from rfl]
  rw [joinSections_drop_empty_last]

/-- Witness for the amended C5 on a one-entry stylesheet map. -/
theorem c5_allcss_sections_witness :
    (cssJsPartition [(['/', 'a', '.', 'c', 's', 's'], ['/', 'b', '.', 'c', 's', 's'])]).2 = [] ∧
    preloadSection (cssJsPartition
      [(['/', 'a', '.', 'c', 's', 's'], ['/', 'b', '.', 'c', 's', 's'])]).2 = [] ∧
    scriptSection (cssJsPartition
      [(['/', 'a', '.', 'c', 's', 's'], ['/', 'b', '.', 'c', 's', 's'])]).2 =
      scriptOpenTag ++ '\n' :: jsonImports [] ++ '\n' :: scriptCloseTag ∧
    transform_html [(['/', 'a', '.', 'c', 's', 's'], ['/', 'b', '.', 'c', 's', 's'])]
        (MARKER_OPEN ++ MARKER_CLOSE) =
      some (replace_between_markers (MARKER_OPEN ++ MARKER_CLOSE)
        (joinSections [cssSection (cssJsPartition
            [(['/', 'a', '.', 'c', 's', 's'], ['/', 'b', '.', 'c', 's', 's'])]).1 [],
          scriptOpenTag ++ '\n' :: jsonImports [] ++ '\n' :: scriptCloseTag])) :=
  c5_allcss_sections (by decide) (by decide) (by decide)

/-! ### Claim C6 -/

theorem mapRemove_fst (css : List (Str × Str)) (u : Str) :
    (mapRemove css u).1 = lookupMap css u := by
  induction css with
  | nil => rfl
  | cons kv rest ih =>
    obtain ⟨k', v'⟩ := kv
    by_cases h : k' = u <;> simp [mapRemove, lookupMap, h, ih]

theorem lookupMap_mapRemove_ne (css : List (Str × Str)) {u w : Str} (hne : w ≠ u) :
    lookupMap (mapRemove css u).2 w = lookupMap css w := by
  induction css with
  | nil => rfl
  | cons kv rest ih =>
    obtain ⟨k', v'⟩ := kv
    by_cases h : k' = u
    · have hm : mapRemove ((k', v') :: rest) u = (some v', rest) := by
        simp [mapRemove, h]
      rw [hm]
      show lookupMap rest w = lookupMap ((k', v') :: rest) w
      conv_rhs => rw [show lookupMap ((k', v') :: rest) w =
        (if k' = w then some v' else lookupMap rest w) from rfl]
      rw [if_neg (by rw [h]; exact fun hc => hne hc.symm)]
    · have hm : mapRemove ((k', v') :: rest) u =
          ((mapRemove rest u).1, (k', v') :: (mapRemove rest u).2) := by
        simp [mapRemove, h]
      rw [hm]
      show lookupMap ((k', v') :: (mapRemove rest u).2) w = lookupMap ((k', v') :: rest) w
      rw [show lookupMap ((k', v') :: (mapRemove rest u).2) w =
          (if k' = w then some v' else lookupMap (mapRemove rest u).2 w) from rfl,
        show lookupMap ((k', v') :: rest) w =
          (if k' = w then some v' else lookupMap rest w) from rfl,
        ih]

theorem consumeCss_eq_filterMap {hrefs : List Str} {css : List (Str × Str)}
    (hnd : hrefs.Nodup) :
    (consumeCss hrefs css).1 = hrefs.filterMap (lookupMap css) := by
  induction hrefs generalizing css with
  | nil => rfl
  | cons u us ih =>
    obtain ⟨hu, hus⟩ := List.nodup_cons.mp hnd
    unfold consumeCss
    cases hl : lookupMap css u with
    | some v =>
      have h1 : (mapRemove css u).1 = some v := by rw [mapRemove_fst, hl]
      rw [show mapRemove css u = (some v, (mapRemove css u).2) from by rw [← h1]]
      show v :: (consumeCss us (mapRemove css u).2).1 = _
      rw [ih hus, List.filterMap_cons, hl]
      congr 1
      apply List.filterMap_congr
      intro w hw
      exact lookupMap_mapRemove_ne css (fun hc => hu (hc ▸ hw))
    | none =>
      have h1 : (mapRemove css u).1 = none := by rw [mapRemove_fst, hl]
      rw [show mapRemove css u = (none, (mapRemove css u).2) from by rw [← h1]]
      show (consumeCss us css).1 = _
      rw [ih hus, List.filterMap_cons, hl]

/-- The spec's wording for the stylesheet section (§4.4): for each discovered
href, substitute the fingerprinted URL by plain lookup in the map, keep the
discovery order, drop the misses. -/
def specOrderedCssLinks (css : List (Str × Str)) (hrefs : List Str) : Str :=
  List.intercalate ['\n'] ((hrefs.filterMap (lookupMap css)).map linkStylesheet)

/-- C6 counterexample: with the href `/a.css` appearing twice in the marker
region and a map entry for it, the output carries the fingerprinted link
once, not once per matching href — the second occurrence is dropped because
`css.remove` consumes the entry. -/
theorem c6_duplicate_href_cx :
    extract_href_values
      (MARKER_OPEN ++ '\n' :: linkStylesheet ['/', 'a', '.', 'c', 's', 's'] ++
        '\n' :: linkStylesheet ['/', 'a', '.', 'c', 's', 's'] ++ '\n' :: MARKER_CLOSE)
      relStylesheet = some [['/', 'a', '.', 'c', 's', 's'], ['/', 'a', '.', 'c', 's', 's']] ∧
    (transform_html [(['/', 'a', '.', 'c', 's', 's'], ['/', 'b', '.', 'c', 's', 's'])]
      (MARKER_OPEN ++ '\n' :: linkStylesheet ['/', 'a', '.', 'c', 's', 's'] ++
        '\n' :: linkStylesheet ['/', 'a', '.', 'c', 's', 's'] ++ '\n' :: MARKER_CLOSE)).map
      (Option.map (fun out =>
        isSubstr out (linkStylesheet ['/', 'b', '.', 'c', 's', 's']) &&
        !isSubstr out (linkStylesheet ['/', 'b', '.', 'c', 's', 's'] ++
          '\n' :: linkStylesheet ['/', 'b', '.', 'c', 's', 's']))) = some (some true) := by
  decide

/-- C6 (amended): assuming the hrefs discovered in the marker region are
pairwise distinct, the stylesheet section substitutes each href by plain
lookup, preserving the discovery order and dropping hrefs with no map entry
(with duplicate hrefs, entries are consumed and repeats are dropped). -/
theorem c6_stylesheet_order {m : List (Str × Str)} {html : Str} {hrefs : List Str}
    (hm : m ≠ []) (hex : extract_href_values html relStylesheet = some hrefs)
    (hnd : hrefs.Nodup) :
    cssSection (cssJsPartition m).1 hrefs =
      specOrderedCssLinks (cssJsPartition m).1 hrefs ∧
    transform_html m html = some (replace_between_markers html
      (joinSections [specOrderedCssLinks (cssJsPartition m).1 hrefs,
        scriptSection (cssJsPartition m).2, preloadSection (cssJsPartition m).2])) := by
  have h1 : cssSection (cssJsPartition m).1 hrefs =
      specOrderedCssLinks (cssJsPartition m).1 hrefs := by
    unfold cssSection specOrderedCssLinks
    rw [consumeCss_eq_filterMap hnd]
  refine ⟨h1, ?_⟩
  unfold transform_html
  rw [if_neg hm]
  dsimp only
  rw [hex]
  show some (replace_between_markers html
      (joinSections [cssSection (cssJsPartition m).1 hrefs,
        scriptSection (cssJsPartition m).2, preloadSection (cssJsPartition m).2])) = _
  rw [h1]

/-- Witness for the amended C6 on a single stylesheet link. -/
theorem c6_stylesheet_order_witness :
    cssSection (cssJsPartition
        [(['/', 'a', '.', 'c', 's', 's'], ['/', 'b', '.', 'c', 's', 's'])]).1
        [['/', 'a', '.', 'c', 's', 's']] =
      specOrderedCssLinks (cssJsPartition
        [(['/', 'a', '.', 'c', 's', 's'], ['/', 'b', '.', 'c', 's', 's'])]).1
        [['/', 'a', '.', 'c', 's', 's']] ∧
    transform_html [(['/', 'a', '.', 'c', 's', 's'], ['/', 'b', '.', 'c', 's', 's'])]
        (MARKER_OPEN ++ '\n' :: linkStylesheet ['/', 'a', '.', 'c', 's', 's'] ++
          '\n' :: MARKER_CLOSE) =
      some (replace_between_markers
        (MARKER_OPEN ++ '\n' :: linkStylesheet ['/', 'a', '.', 'c', 's', 's'] ++
          '\n' :: MARKER_CLOSE)
        (joinSections [specOrderedCssLinks (cssJsPartition
            [(['/', 'a', '.', 'c', 's', 's'], ['/', 'b', '.', 'c', 's', 's'])]).1
            [['/', 'a', '.', 'c', 's', 's']],
          scriptSection (cssJsPartition
            [(['/', 'a', '.', 'c', 's', 's'], ['/', 'b', '.', 'c', 's', 's'])]).2,
          preloadSection (cssJsPartition
            [(['/', 'a', '.', 'c', 's', 's'], ['/', 'b', '.', 'c', 's', 's'])]).2])) :=
  c6_stylesheet_order (by decide) (by decide) (by decide)

/-! ### Claim C10 -/

/-- C10: stylesheet discovery is line-based — every href carried into the
regenerated region comes from a single line of the marker region that
contains both a `rel="stylesheet"`/`rel='stylesheet'` attribute and an
`href=` attribute; and a link tag whose `rel` and `href` sit on different
lines contributes nothing (second conjunct: a concrete split tag yields no
hrefs). -/
theorem c10_line_based_href :
    (∀ (html rel : Str) (L : List Str) (u : Str),
      extract_href_values html rel = some L → u ∈ L →
      ∃ region line, regionOf html = some region ∧ line ∈ rustLines region ∧
        lineHasRel rel line = true ∧
        (isSubstr line hrefDq = true ∨ isSubstr line hrefSq = true)) ∧
    extract_href_values
      (MARKER_OPEN ++ '\n' :: ('<' :: 'l' :: 'i' :: 'n' :: 'k' :: ' ' ::
          relPatDq relStylesheet) ++
        '\n' :: (' ' :: ' ' :: hrefDq ++ ['/', 'a', '.', 'c', 's', 's', '"', '>']) ++
        '\n' :: MARKER_CLOSE) relStylesheet = some [] := by
  constructor
  · intro html rel L u hex hu
    unfold extract_href_values at hex
    cases hr : regionOf html with
    | none => rw [hr] at hex; simp at hex
    | some region =>
      rw [hr] at hex
      have heq := Option.some.inj hex
      subst heq
      obtain ⟨line, hline, hsome⟩ := List.mem_filterMap.mp hu
      have hmem := List.mem_filter.mp hline
      refine ⟨region, line, rfl, hmem.1, hmem.2, ?_⟩
      unfold hrefOfLine at hsome
      cases hd : findSub line hrefDq with
      | some i =>
        left
        unfold isSubstr
        rw [hd]
        rfl
      | none =>
        cases hs : findSub line hrefSq with
        | some i =>
          right
          unfold isSubstr
          rw [hs]
          rfl
        | none =>
          rw [hd, hs] at hsome
          simp at hsome
  · decide

/-- Witness for C10 on a single-line stylesheet link. -/
theorem c10_line_based_href_witness :
    ∃ region line,
      regionOf (MARKER_OPEN ++ '\n' :: linkStylesheet ['/', 'a', '.', 'c', 's', 's'] ++
        '\n' :: MARKER_CLOSE) = some region ∧
      line ∈ rustLines region ∧
      lineHasRel relStylesheet line = true ∧
      (isSubstr line hrefDq = true ∨ isSubstr line hrefSq = true) :=
  c10_line_based_href.1
    (MARKER_OPEN ++ '\n' :: linkStylesheet ['/', 'a', '.', 'c', 's', 's'] ++
      '\n' :: MARKER_CLOSE)
    relStylesheet [['/', 'a', '.', 'c', 's', 's']] ['/', 'a', '.', 'c', 's', 's']
    (by decide) (by decide)

/-! ### Claim C1 -/

/-- The one-entry stylesheet map of the C1 analysis. -/
def c1Map : List (Str × Str) := [(['/', 'a', '.', 'c', 's', 's'], ['/', 'b', '.', 'c', 's', 's'])]

/-- A marker region holding a stylesheet link for the map's original URL. -/
def c1Html : Str :=
  MARKER_OPEN ++ '\n' :: linkStylesheet ['/', 'a', '.', 'c', 's', 's'] ++
    '\n' :: MARKER_CLOSE

/-- C1: the transform is NOT idempotent — the spec requires
`transform(transform(html, M), M) == transform(html, M)` byte-identically,
but with a stylesheet entry matched in the marker region the first output
carries the fingerprinted href, which the second run cannot match against
the map's original-URL keys, so the link is dropped. First conjunct: both
transforms succeed and the second output differs from the first
(`decide (h2 = h1)` evaluates to `false`). Second conjunct: re-running
`update_html_file` on the first output reports the file as changed. -/
theorem c1_transform_not_idempotent_on_css :
    (transform_html c1Map c1Html).map (Option.map (fun h1 =>
      (transform_html c1Map h1).map (Option.map (fun h2 => decide (h2 = h1))))) =
      some (some (some (some false))) ∧
    (transform_html c1Map c1Html).map (Option.map (fun h1 =>
      (update_html_file c1Map h1).map (fun r => r.1))) =
      some (some (some true)) := by
  decide
